import Mathlib

/-!
Verification of the toolRAG retrieval core (Go) against its specification.

This file shallowly embeds the Go source into Lean:
strings are modelled as `String`/`List Char`, Go `float64` arithmetic is
modelled over `ℚ` (with `math.Log` kept as an explicit function parameter,
since none of the verified properties depend on the value of the logarithm),
Go maps are modelled as association lists or counting functions, and the
unspecified iteration order of a Go `map` is modelled as an explicit
enumeration parameter constrained to list exactly the map's keys.
Fallible Go functions returning `error` are modelled with `Except String`.
-/

namespace ToolRAG

/-! ## Chunker (Go `chunkText`, `main.go`)

Go's `strings.TrimSpace` removes leading and trailing Unicode white space.
`goIsSpace` lists exactly the code points of Unicode's White_Space class,
as implemented by Go's `unicode.IsSpace`. -/

def goIsSpace (c : Char) : Bool :=
  c.toNat = 0x09 || c.toNat = 0x0A || c.toNat = 0x0B || c.toNat = 0x0C ||
  c.toNat = 0x0D || c.toNat = 0x20 || c.toNat = 0x85 || c.toNat = 0xA0 ||
  c.toNat = 0x1680 || (0x2000 ≤ c.toNat && c.toNat ≤ 0x200A) ||
  c.toNat = 0x2028 || c.toNat = 0x2029 || c.toNat = 0x202F ||
  c.toNat = 0x205F || c.toNat = 0x3000

/-- Model of Go `strings.TrimSpace` on a list of characters: drop white
space from the front, then from the back.  (Go slices bytes, but a trimmed
UTF-8 string corresponds exactly to the trimmed character sequence, since
white-space code points never share bytes with other characters.) -/
def goTrim (l : List Char) : List Char :=
  (l.dropWhile goIsSpace).rdropWhile goIsSpace

/-- Model of Go `strings.Split(text, "\n\n")`: split around each
leftmost, non-overlapping occurrence of two consecutive newlines. -/
def splitParas : List Char → List (List Char)
  | [] => [[]]
  | '\n' :: '\n' :: rest => [] :: splitParas rest
  | c :: rest =>
    match splitParas rest with
    | [] => [[c]]
    | h :: t => (c :: h) :: t

/-- The hard-wrap loop of Go `chunkText`: while the paragraph exceeds
`size` characters, emit the trimmed `size`-character head and continue on
the trimmed remainder; finally emit the remainder if non-empty.
Every iteration shortens the paragraph by at least `size` characters and
`chunkText` only calls the loop with a positive `size` (the Go loop would
not terminate otherwise), so the paragraph length bounds the iteration
count; the bound is passed as the structural argument `fuel`. -/
def wrapParaF (size : ℕ) : ℕ → List Char → List (List Char)
  | 0, p => if p = [] then [] else [p]
  | fuel + 1, p =>
    if size < p.length then
      goTrim (p.take size) :: wrapParaF size fuel (goTrim (p.drop size))
    else if p = [] then [] else [p]

def wrapPara (size : ℕ) (p : List Char) : List (List Char) :=
  wrapParaF size p.length p

/-- The effective chunk size used by Go `chunkText`: `chunkSize <= 0`
falls back to the fixed default of 800 characters. -/
def effChunkSize (chunkSize : Int) : ℕ :=
  if chunkSize ≤ 0 then 800 else chunkSize.toNat

/-- Model of Go `chunkText(text string, chunkSize int) []string`
(`main.go`): fall back to 800 when `chunkSize <= 0`, trim the whole text,
return no chunks when it is empty, otherwise split on blank lines and
hard-wrap each trimmed, non-empty paragraph. -/
def chunkText (text : List Char) (chunkSize : Int) : List (List Char) :=
  let t := goTrim text
  if t = [] then []
  else (splitParas t).flatMap fun para => wrapPara (effChunkSize chunkSize) (goTrim para)

/-! ## Stable identifiers (Go `stableID`, `main.go`)

The Go code computes `hex.EncodeToString(sha256.Sum256([]byte(strings.Join(parts, "|"))))`.
SHA-256 is implemented below from FIPS 180-4 on `ℕ` with explicit
reduction modulo `2 ^ 32`, and the input string is encoded to UTF-8 bytes
exactly as Go's `[]byte` conversion does. -/

/-- Big-endian split of a 256-bit constant into eight 32-bit words. -/
def unpack8 (w : ℕ) : List ℕ :=
  (List.range 8).map fun i => w >>> (32 * (7 - i)) % 2 ^ 32

/-- The 64 SHA-256 round constants of FIPS 180-4, packed eight words to a
literal (word `4t` through `4t+3` of group `g` are bits `255-32i` down). -/
def shaK : List ℕ := [
  0x428a2f9871374491b5c0fbcfe9b5dba53956c25b59f111f1923f82a4ab1c5ed5,
  0xd807aa9812835b01243185be550c7dc372be5d7480deb1fe9bdc06a7c19bf174,
  0xe49b69c1efbe47860fc19dc6240ca1cc2de92c6f4a7484aa5cb0a9dc76f988da,
  0x983e5152a831c66db00327c8bf597fc7c6e00bf3d5a7914706ca635114292967,
  0x27b70a852e1b21384d2c6dfc53380d13650a7354766a0abb81c2c92e92722c85,
  0xa2bfe8a1a81a664bc24b8b70c76c51a3d192e819d6990624f40e3585106aa070,
  0x19a4c1161e376c082748774c34b0bcb5391c0cb34ed8aa4a5b9cca4f682e6ff3,
  0x748f82ee78a5636f84c878148cc7020890befffaa4506cebbef9a3f7c67178f2].flatMap unpack8

/-- The eight SHA-256 initial hash values, packed into one literal. -/
def shaH0 : List ℕ :=
  unpack8 0x6a09e667bb67ae853c6ef372a54ff53a510e527f9b05688c1f83d9ab5be0cd19

def rotr32 (n x : ℕ) : ℕ := ((x >>> n) ||| (x <<< (32 - n))) % 2 ^ 32

def ssig0 (x : ℕ) : ℕ := rotr32 7 x ^^^ rotr32 18 x ^^^ (x >>> 3)

def ssig1 (x : ℕ) : ℕ := rotr32 17 x ^^^ rotr32 19 x ^^^ (x >>> 10)

def bsig0 (x : ℕ) : ℕ := rotr32 2 x ^^^ rotr32 13 x ^^^ rotr32 22 x

def bsig1 (x : ℕ) : ℕ := rotr32 6 x ^^^ rotr32 11 x ^^^ rotr32 25 x

/-- FIPS 180-4 padding: append `0x80`, then zeros up to 56 mod 64 bytes,
then the bit length as a big-endian 64-bit integer. -/
def shaPad (msg : List ℕ) : List ℕ :=
  let L := msg.length
  let z := (64 + 55 - L % 64) % 64
  msg ++ 0x80 :: List.replicate z 0 ++
    (List.range 8).map fun i => (8 * L) >>> (8 * (7 - i)) % 256

/-- Value of a big-endian byte sequence. -/
def beWord (bs : List ℕ) : ℕ := bs.foldl (fun a b => a * 256 + b) 0

/-- Split into 64-byte blocks.  Every step consumes 64 bytes, so the byte
count bounds the number of steps; it is passed as the structural `fuel`. -/
def toBlocksF : ℕ → List ℕ → List (List ℕ)
  | 0, _ => []
  | fuel + 1, l => if l = [] then [] else l.take 64 :: toBlocksF fuel (l.drop 64)

def toBlocks (l : List ℕ) : List (List ℕ) := toBlocksF l.length l

def blockWords (b : List ℕ) : List ℕ :=
  (List.range 16).map fun i => beWord ((b.drop (4 * i)).take 4)

/-- Message-schedule extension: append `n` further words to `ws`. -/
def shaExtend : ℕ → List ℕ → List ℕ
  | 0, ws => ws
  | n + 1, ws =>
    let m := ws.length
    shaExtend n (ws ++ [(ssig1 (ws.getD (m - 2) 0) + ws.getD (m - 7) 0 +
      ssig0 (ws.getD (m - 15) 0) + ws.getD (m - 16) 0) % 2 ^ 32])

/-- One round of the SHA-256 compression function on the eight-word state. -/
def shaRound (st : List ℕ) (kt wt : ℕ) : List ℕ :=
  match st with
  | [a, b, c, d, e, f, g, h] =>
    let t1 := (h + bsig1 e + ((e &&& f) ^^^ ((e ^^^ 0xffffffff) &&& g)) + kt + wt) % 2 ^ 32
    let t2 := (bsig0 a + ((a &&& b) ^^^ (a &&& c) ^^^ (b &&& c))) % 2 ^ 32
    [(t1 + t2) % 2 ^ 32, a, b, c, (d + t1) % 2 ^ 32, e, f, g]
  | other => other

def shaCompress (st : List ℕ) (block : List ℕ) : List ℕ :=
  let ws := shaExtend 48 (blockWords block)
  let stN := (shaK.zip ws).foldl (fun s kw => shaRound s kw.1 kw.2) st
  List.zipWith (fun x y => (x + y) % 2 ^ 32) st stN

def sha256Words (msg : List ℕ) : List ℕ :=
  (toBlocks (shaPad msg)).foldl shaCompress shaH0

def hexDigit (n : ℕ) : Char := if n < 10 then Char.ofNat (48 + n) else Char.ofNat (87 + n)

def wordHex (w : ℕ) : List Char :=
  (List.range 8).map fun i => hexDigit (w >>> (4 * (7 - i)) % 16)

/-- Lower-case hexadecimal SHA-256 digest of a byte sequence, as produced
by Go's `hex.EncodeToString(sha256.Sum256(bytes))`. -/
def sha256hex (msg : List ℕ) : String := String.mk ((sha256Words msg).flatMap wordHex)

/-- UTF-8 encoding of a character, as in Go's `[]byte(string)` conversion. -/
def utf8Bytes (c : Char) : List ℕ :=
  let v := c.toNat
  if v < 0x80 then [v]
  else if v < 0x800 then [0xC0 ||| v >>> 6, 0x80 ||| (v &&& 0x3F)]
  else if v < 0x10000 then
    [0xE0 ||| v >>> 12, 0x80 ||| (v >>> 6 &&& 0x3F), 0x80 ||| (v &&& 0x3F)]
  else
    [0xF0 ||| v >>> 18, 0x80 ||| (v >>> 12 &&& 0x3F), 0x80 ||| (v >>> 6 &&& 0x3F),
     0x80 ||| (v &&& 0x3F)]

def strBytes (s : String) : List ℕ := s.data.flatMap utf8Bytes

/-- Model of Go `stableID(parts ...string)` (`main.go`):
hex-encoded SHA-256 of the parts joined with `"|"`. -/
def stableID (parts : List String) : String :=
  sha256hex (strBytes (String.intercalate "|" parts))

/-- Reversed decimal digit list of a natural number (empty for zero). -/
def natDigitsRev : ℕ → List Char
  | 0 => []
  | n + 1 => hexDigit ((n + 1) % 10) :: natDigitsRev ((n + 1) / 10)
decreasing_by exact Nat.div_lt_self (Nat.succ_pos n) (by norm_num)

/-- Decimal rendering of a natural number, as Go's `fmt.Sprintf("%d", i)`
renders the (non-negative) chunk ordinal. -/
def natDecimal (n : ℕ) : String :=
  if n = 0 then "0" else String.mk (natDigitsRev n).reverse

/-- Value of a reversed decimal digit list; used to invert `natDigitsRev`. -/
def decValRev : List Char → ℕ
  | [] => 0
  | c :: r => (c.toNat - 48) + 10 * decValRev r

/-- The SHA-256 input that `deriveId` hashes: the components joined with `"|"`. -/
def joinedKey (ns path : String) (ordinal : ℕ) : String :=
  String.intercalate "|" [ns, path, natDecimal ordinal]

/-- Chunk-id derivation as performed during ingestion
(`stableID("rag", path, fmt.Sprintf("%d", i))` in `loadDocumentsFromDataDir`,
with the namespace generalized as in the spec's `deriveId(ns, path, ordinal)`). -/
def deriveId (ns path : String) (ordinal : ℕ) : String :=
  stableID [ns, path, natDecimal ordinal]

/-! ## Tokenizer (Go `tokenize`, `retrieval.go`)

Go lowercases with `strings.ToLower`, replaces every run of characters
outside the Unicode classes `\p{L}\p{N}` with a single space
(`nonWord.ReplaceAllString(s, " ")`) and splits with `strings.Fields`.
The Unicode tables for lowercasing and for the letter/digit classes are
kept as parameters (`TokCfg`): no verified property depends on which
characters count as letters. -/

structure TokCfg where
  lower : Char → Char
  wordChar : Char → Bool

/-- Model of `nonWord.ReplaceAllString(s, " ")`: replace every maximal run
of non-word characters with a single space. -/
def collapseNonWord (wordChar : Char → Bool) : List Char → List Char
  | [] => []
  | c :: rest =>
    if wordChar c then c :: collapseNonWord wordChar rest
    else ' ' :: collapseNonWord wordChar (rest.dropWhile fun x => !wordChar x)
termination_by l => l.length
decreasing_by
  · simp only [List.length_cons]
    omega
  · exact Nat.lt_of_le_of_lt ((List.dropWhile_sublist _).length_le)
      (by simp only [List.length_cons]; omega)

/-- Model of Go `strings.Fields`: the maximal runs of non-white-space
characters. -/
def goFields : List Char → List (List Char)
  | [] => []
  | c :: rest =>
    if goIsSpace c then goFields rest
    else ((c :: rest).takeWhile fun x => !goIsSpace x) ::
      goFields ((c :: rest).dropWhile fun x => !goIsSpace x)
termination_by l => l.length
decreasing_by
  · simp only [List.length_cons]
    omega
  · rename_i hc
    simp only [Bool.not_eq_true] at hc
    rw [List.dropWhile_cons]
    simp only [hc, Bool.not_false, if_true]
    exact Nat.lt_of_le_of_lt ((List.dropWhile_sublist _).length_le)
      (by simp only [List.length_cons]; omega)

/-- Model of Go `tokenize` (`retrieval.go`): lowercase, collapse non-word
runs to single spaces, split into fields. -/
def tokenize (cfg : TokCfg) (s : List Char) : List (List Char) :=
  goFields (collapseNonWord cfg.wordChar (s.map cfg.lower))

/-! ## BM25 index (Go `BM25Index`, `NewBM25Index`, `Search`, `retrieval.go`)

Go `float64` arithmetic is modelled over `ℚ`; `math.Log` is a parameter
`log : ℚ → ℚ` (every verified property holds for an arbitrary logarithm).
The per-document Go maps `tf[i]` and `df` are modelled as counting
functions, with a zero default exactly like a Go map read. -/

/-- Insertion into a `le`-sorted list; `sortLe` below is the
deterministic sorting function used to model Go's `sort.Slice`. -/
def insertLe {α : Type} (le : α → α → Bool) (x : α) : List α → List α
  | [] => [x]
  | y :: ys => if le x y then x :: y :: ys else y :: insertLe le x ys

/-- A sort realizing the comparator `le`.  Go's `sort.Slice` is
non-stable and its permutation of tied entries is implementation-defined;
every property proved below about a sorted result holds for any sort
realizing the comparator. -/
def sortLe {α : Type} (le : α → α → Bool) : List α → List α
  | [] => []
  | x :: xs => insertLe le x (sortLe le xs)

structure BM25Doc where
  ID : String
  Text : String
deriving DecidableEq

/-- Tokens of one document, as computed in `NewBM25Index`. -/
def docTokens (cfg : TokCfg) (d : BM25Doc) : List (List Char) :=
  tokenize cfg d.Text.data

structure BM25Index where
  docs : List BM25Doc
  tf : List (List Char → ℕ)
  docLen : List ℕ
  df : List Char → ℕ
  avgDocLen : ℚ

/-- Model of Go `NewBM25Index` (`retrieval.go`): per-document term
frequencies and lengths, document frequencies, and the average document
length (zero for an empty corpus, like the Go zero value). -/
def NewBM25Index (cfg : TokCfg) (docs : List BM25Doc) : BM25Index where
  docs := docs
  tf := docs.map fun d => fun t => (docTokens cfg d).count t
  docLen := docs.map fun d => (docTokens cfg d).length
  df := fun t => docs.countP fun d => decide (t ∈ docTokens cfg d)
  avgDocLen :=
    if 0 < docs.length then
      ((docs.map fun d => (docTokens cfg d).length).sum : ℚ) / (docs.length : ℚ)
    else 0

/-- The inner scoring loop of Go `Search`: fold over the query tokens,
skipping tokens with zero frequency in the document, accumulating the BM25
term with `k1 = 1.5`, `b = 0.75`. -/
def bm25ScoreAux (log : ℚ → ℚ) (N avg : ℚ) (df tfd : List Char → ℕ) (dl : ℚ)
    (qTokens : List (List Char)) : ℚ :=
  qTokens.foldl
    (fun score t =>
      let f : ℚ := tfd t
      if f = 0 then score
      else
        let dfq : ℚ := df t
        let idf := log (1 + (N - dfq + 0.5) / (dfq + 0.5))
        let den := f + 1.5 * (1 - 0.75 + 0.75 * (dl / avg))
        score + idf * (f * (1.5 + 1) / den))
    0

/-- Model of Go `(*BM25Index).Search` (`retrieval.go`): empty on an empty
index or an empty token list; otherwise score every document (iterating
the parallel arrays `docs`/`tf`/`docLen`), keep the strictly positive
scores, sort descending by score, return the first `k` ids.  Go sorts with
`sort.Slice` and the comparator `scores[i].score > scores[j].score`; its
exact permutation of tied entries is implementation-defined, and every
property proved below holds for any sort realizing that comparator. -/
def Search (cfg : TokCfg) (log : ℚ → ℚ) (idx : BM25Index) (query : String) (k : Int) :
    List String :=
  if idx.docs.length = 0 then []
  else
    let qTokens := tokenize cfg query.data
    if qTokens = [] then []
    else
      let N : ℚ := idx.docs.length
      let scores := (idx.docs.zip (idx.tf.zip idx.docLen)).filterMap fun row =>
        let s := bm25ScoreAux log N idx.avgDocLen idx.df row.2.1 (row.2.2 : ℚ) qTokens
        if 0 < s then some (row.1.ID, s) else none
      let sorted := sortLe (fun x y => decide (y.2 ≤ x.2)) scores
      (sorted.take k.toNat).map Prod.fst

/-! Spec-side BM25 definitions, written from the specification's formula
(section 4.3) for the refinement comparison with `Search`. -/

/-- The spec's `idf(t) = ln(1 + (N − df(t) + 0.5) / (df(t) + 0.5))`. -/
def specIdf (log : ℚ → ℚ) (N dfT : ℚ) : ℚ :=
  log (1 + (N - dfT + 0.5) / (dfT + 0.5))

/-- The spec's score of document `d`:
sum over the query's tokens `t` occurring in `d` of
`idf(t) · f(t,d)·(k1+1) / (f(t,d) + k1·(1 − b + b·|d|/avgLen))`,
`k1 = 1.5`, `b = 0.75`, `N` the corpus size. -/
def specBM25Score (cfg : TokCfg) (log : ℚ → ℚ) (docs : List BM25Doc) (query : String)
    (d : BM25Doc) : ℚ :=
  let N : ℚ := docs.length
  let avgLen : ℚ :=
    if 0 < docs.length then
      ((docs.map fun d2 => (docTokens cfg d2).length).sum : ℚ) / (docs.length : ℚ)
    else 0
  let dl : ℚ := (docTokens cfg d).length
  (((tokenize cfg query.data).filter fun t => 0 < (docTokens cfg d).count t).map fun t =>
    let f : ℚ := (docTokens cfg d).count t
    let dfT : ℚ := docs.countP fun d2 => decide (t ∈ docTokens cfg d2)
    specIdf log N dfT * (f * (1.5 + 1)) / (f + 1.5 * (1 - 0.75 + 0.75 * (dl / avgLen)))).sum

/-- The documents retained by the spec: those with strictly positive
score, in corpus order, paired with their scores. -/
def specPositives (cfg : TokCfg) (log : ℚ → ℚ) (docs : List BM25Doc) (query : String) :
    List (String × ℚ) :=
  docs.filterMap fun d =>
    let s := specBM25Score cfg log docs query d
    if 0 < s then some (d.ID, s) else none

/-! ## Reciprocal Rank Fusion (Go `rrfFuseIDs`, `retrieval.go`)

Go accumulates `score[id] += 1.0 / float64(k+i+1)` over both input lists,
collects the map's keys by a `for id := range score` loop — whose order
the Go specification leaves undefined and the runtime randomizes — and
sorts them with the non-stable `sort.Slice` under the comparator
`score[uniq[i]] > score[uniq[j]]`.  The model therefore takes the
enumeration order of the keys as an explicit argument `iter`; the valid
enumerations are exactly the permutations of `rrfKeys a b`. -/

/-- Total contribution of the occurrences of `id` in a list to its fused
score, the element at index `i` contributing `1/(k+i+1)`. -/
def rrfContrib (k : ℕ) : List String → String → ℚ
  | [], _ => 0
  | x :: xs, id => (if x = id then (1 : ℚ) / (k + 1) else 0) + rrfContrib (k + 1) xs id

/-- The fused score of `id`: contributions from both ranked lists summed. -/
def rrfScore (k : ℕ) (a b : List String) (id : String) : ℚ :=
  rrfContrib k a id + rrfContrib k b id

/-- The key set of the Go score map: the ids occurring in either list. -/
def rrfKeys (a b : List String) : List String := (a ++ b).dedup

/-- Model of Go `rrfFuseIDs(a, b []string, k int)` at map-enumeration
order `iter`: the keys sorted descending by fused score. -/
def rrfFuseIDs (a b : List String) (k : ℕ) (iter : List String) : List String :=
  sortLe (fun x y => decide (rrfScore k a b y ≤ rrfScore k a b x)) iter

/-! ## Embedding client (Go `hfEmbedder.Embed`, `langchainTools.go`)

The provider (one HTTP round trip per batch) is a parameter giving, for
each successive request index, either a transport error (`client.Do`), a
non-200 response, a JSON decoding failure, or a decoded `[][]float32`.
The Go result map is modelled as an association list built with
Go-map insertion (replace on duplicate key). -/

structure Chunk where
  ID : String
  Text : String
deriving DecidableEq

inductive ProviderResp where
  | transport (msg : String)
  | httpErr (status : ℕ) (body : String)
  | decodeErr (msg : String)
  | ok (vecs : List (List ℚ))
deriving DecidableEq

def mapUpsert (m : List (String × List ℚ)) (key : String) (v : List ℚ) :
    List (String × List ℚ) :=
  if m.any fun e => e.1 = key then m.map fun e => if e.1 = key then (key, v) else e
  else m ++ [(key, v)]

def mapLookup (m : List (String × List ℚ)) (key : String) : Option (List ℚ) :=
  (m.find? fun e => e.1 = key).map Prod.snd

/-- The batch loop of Go `hfEmbedder.Embed`: take the next `batch` chunks,
issue one provider request with their texts, abort the whole call on a
transport error, a non-200 status, a decode failure, or a response length
differing from the batch length; otherwise insert one vector per chunk id
and continue.  Returns the issued requests together with the result. -/
def hfEmbedGoF (provider : ℕ → List String → ProviderResp) (batch : ℕ) :
    ℕ → ℕ → List (String × List ℚ) → List Chunk →
    List (List String) × Except String (List (String × List ℚ))
  | 0, _, out, _ => ([], .ok out)
  | fuel + 1, callIdx, out, rem =>
    if rem = [] then ([], .ok out)
    else
      let bat := rem.take batch
      let inputs := bat.map Chunk.Text
      match provider callIdx inputs with
      | .transport m => ([inputs], .error m)
      | .httpErr st body =>
        ([inputs], .error ("HF API non-200: " ++ natDecimal st ++ ": " ++ body))
      | .decodeErr m => ([inputs], .error m)
      | .ok vecs =>
        if vecs.length ≠ bat.length then ([inputs], .error "embeddings count mismatch")
        else
          let out2 := (bat.zip vecs).foldl (fun m cv => mapUpsert m cv.1.ID cv.2) out
          let rest := hfEmbedGoF provider batch fuel (callIdx + 1) out2 (rem.drop batch)
          (inputs :: rest.1, rest.2)

/-- Model of Go `hfEmbedder.Embed` (`langchainTools.go`): empty input
yields an empty map with no request, otherwise run the batch loop.
The loop advances by `batch ≥ 1` chunks per request, so the chunk count
bounds its iteration count; the bound is the structural `fuel` of
`hfEmbedGoF`.  The first result component lists the issued requests. -/
def hfEmbed (provider : ℕ → List String → ProviderResp) (batch : ℕ) (chunks : List Chunk) :
    List (List String) × Except String (List (String × List ℚ)) :=
  if chunks = [] then ([], .ok []) else hfEmbedGoF provider batch chunks.length 0 [] chunks

/-- The consecutive batches `chunks[i:i+batch]` visited by the loop of
`hfEmbedder.Embed`, with the same structural bound. -/
def chunkBatchesF (batch : ℕ) : ℕ → List Chunk → List (List Chunk)
  | 0, _ => []
  | fuel + 1, chunks =>
    if chunks = [] then [] else chunks.take batch :: chunkBatchesF batch fuel (chunks.drop batch)

def chunkBatches (batch : ℕ) (chunks : List Chunk) : List (List Chunk) :=
  chunkBatchesF batch chunks.length chunks

/-- A provider response on which `hfEmbedder.Embed` aborts the whole call
for a batch of `n` chunks: a transport error, a non-success status, a
decode failure, or a response array whose length differs from `n`. -/
def respFails (r : ProviderResp) (n : ℕ) : Prop :=
  match r with
  | .ok vecs => vecs.length ≠ n
  | _ => True

/-! ## Ingestion (Go `loadDocumentsFromDataDir`, `main.go`)

The walk over the data directory is modelled as a list of files, each
carrying the result of `os.ReadFile`.  The embedding provider is a
parameter per file path (one `Embed` call per file), and the external
store's answer to an upsert is a parameter `upsertOk` per id.
`filepath.WalkDir` stops the whole walk as soon as the callback returns a
non-nil error, which the `Except` fold mirrors. -/

deriving instance DecidableEq for Except

structure GoFile where
  path : String
  content : Except String String
deriving DecidableEq

/-- Model of Go `chromaUpsert` (`chroma_helpers.go`) for a non-nil
collection: reject an empty id or a missing (nil) vector locally,
otherwise ask the store. -/
def chromaUpsertM (upsertOk : String → Bool) (id : String) (vec : Option (List ℚ)) : Bool :=
  decide (id ≠ "") && vec.isSome && upsertOk id

/-- The `embedInputs` built for one file: chunk `i` gets id
`stableID("rag", path, fmt.Sprintf("%d", i))`. -/
def embedInputsOf (path : String) (chunks : List (List Char)) : List Chunk :=
  chunks.mapIdx fun i c => { ID := stableID ["rag", path, natDecimal i], Text := String.mk c }

/-- The body of the `WalkDir` callback for one file: skip unreadable or
empty files, chunk, embed the file's chunks as one call, return the
embedding error if any; otherwise upsert each chunk, skipping failed
upserts, and return the number of indexed chunks with the corpus entries
accumulated for the BM25 rebuild. -/
def processFile (provider : String → ℕ → List String → ProviderResp)
    (upsertOk : String → Bool) (size : Int) (f : GoFile) :
    Except String (ℕ × List BM25Doc) :=
  match f.content with
  | .error _ => .ok (0, [])
  | .ok raw =>
    let text := goTrim raw.data
    if text = [] then .ok (0, [])
    else
      let chunks := chunkText text size
      if chunks = [] then .ok (0, [])
      else
        let inputs := embedInputsOf f.path chunks
        match (hfEmbed (provider f.path) 64 inputs).2 with
        | .error e => .error ("embedding " ++ f.path ++ ": " ++ e)
        | .ok vecs =>
          .ok (inputs.foldl
            (fun acc inp =>
              if chromaUpsertM upsertOk inp.ID (mapLookup vecs inp.ID) then
                (acc.1 + 1, acc.2 ++ [{ ID := inp.ID, Text := inp.Text }])
              else acc)
            (0, []))

/-- The chunks one file contributes to the embedding call, as built by
the walk callback (empty for unreadable or empty files). -/
def fileInputs (size : Int) (f : GoFile) : List Chunk :=
  match f.content with
  | .error _ => []
  | .ok raw => embedInputsOf f.path (chunkText (goTrim raw.data) size)

/-- The walk: process the files in order, aborting on the first error as
`filepath.WalkDir` does when the callback returns non-nil. -/
def walkFiles (provider : String → ℕ → List String → ProviderResp)
    (upsertOk : String → Bool) (size : Int) :
    List GoFile → Except String (ℕ × List BM25Doc)
  | [] => .ok (0, [])
  | f :: fs =>
    match processFile provider upsertOk size f with
    | .error e => .error e
    | .ok (c, l) =>
      match walkFiles provider upsertOk size fs with
      | .error e => .error e
      | .ok (n, corpus) => .ok (c + n, l ++ corpus)

/-- Model of Go `loadDocumentsFromDataDir` (`main.go`): default the
configured chunk length, walk the files, and propagate a walk error. -/
def loadDocumentsFromDataDir (provider : String → ℕ → List String → ProviderResp)
    (upsertOk : String → Bool) (chunkLen : Int) (files : List GoFile) :
    Except String (ℕ × List BM25Doc) :=
  walkFiles provider upsertOk (if chunkLen ≤ 0 then 800 else chunkLen) files

/-- The BM25 index published by an ingestion pass: rebuilt from the
accumulated corpus only when the walk finished without error (on error,
`loadDocumentsFromDataDir` returns before `bm25Index = NewBM25Index(corpus)`). -/
def ingestIndex (cfg : TokCfg) (provider : String → ℕ → List String → ProviderResp)
    (upsertOk : String → Bool) (chunkLen : Int) (files : List GoFile) :
    Option BM25Index :=
  match loadDocumentsFromDataDir provider upsertOk chunkLen files with
  | .error _ => none
  | .ok (_, corpus) => some (NewBM25Index cfg corpus)

/-! ## Concrete instances used by the witnesses -/

/-- An ASCII instantiation of the tokenizer tables, for concrete runs. -/
def asciiCfg : TokCfg where
  lower := Char.toLower
  wordChar := fun c => c.isAlpha || c.isDigit

/-- 130 chunks with pairwise distinct ids, for the batching witness. -/
def chunks130 : List Chunk :=
  (List.range 130).map fun i => { ID := String.mk (List.replicate i 'a'), Text := "t" }

/-- A provider that answers every request with one vector per text. -/
def echoProvider : ℕ → List String → ProviderResp :=
  fun _ texts => .ok (texts.map fun _ => [1])

/-- A per-file provider whose embedding call fails for `f1` only. -/
def boomProvider : String → ℕ → List String → ProviderResp :=
  fun path idx texts =>
    if path = "f1" then .transport "boom" else echoProvider idx texts

/-! # Theorems

Helper lemmas about trimming, then one theorem per claim of the
specification review, each with its witness where the statement carries
hypotheses. -/

theorem goTrim_def (l : List Char) :
    goTrim l = List.rdropWhile goIsSpace (l.dropWhile goIsSpace) := rfl

theorem dropWhile_fixed_head (p : Char → Bool) (a : Char) (t : List Char)
    (h : List.dropWhile p (a :: t) = a :: t) : p a = false := by
  cases hga : p a with
  | false => rfl
  | true =>
    exfalso
    rw [List.dropWhile_cons, hga, if_pos rfl] at h
    have hlen := congrArg List.length h
    have hle := (List.dropWhile_sublist (l := t) p).length_le
    simp only [List.length_cons] at hlen
    omega

theorem dropWhile_goTrim (l : List Char) : (goTrim l).dropWhile goIsSpace = goTrim l := by
  rw [goTrim_def]
  rcases hr : List.rdropWhile goIsSpace (l.dropWhile goIsSpace) with _ | ⟨a, t⟩
  · simp
  · have hp := List.rdropWhile_prefix goIsSpace (l.dropWhile goIsSpace)
    rw [hr] at hp
    obtain ⟨s, hs⟩ := hp
    have hfix := List.dropWhile_idempotent goIsSpace l
    rw [← hs, List.cons_append] at hfix
    have ha : goIsSpace a = false := dropWhile_fixed_head _ _ _ hfix
    rw [List.dropWhile_cons, ha]
    simp

theorem goTrim_idem (l : List Char) : goTrim (goTrim l) = goTrim l := by
  rw [goTrim_def (goTrim l), dropWhile_goTrim l, goTrim_def l, List.rdropWhile_idempotent]

theorem goTrim_head_not (l : List Char) (a : Char) (t : List Char) (h : goTrim l = a :: t) :
    goIsSpace a = false := by
  have h1 := dropWhile_goTrim l
  rw [h] at h1
  exact dropWhile_fixed_head _ _ _ h1

theorem goTrim_cons_ne_nil (a : Char) (s : List Char) (ha : goIsSpace a = false) :
    goTrim (a :: s) ≠ [] := by
  rw [goTrim_def, List.dropWhile_cons, ha]
  simp only [Bool.false_eq_true, if_false]
  intro hnil
  rw [List.rdropWhile_eq_nil_iff] at hnil
  have := hnil a (by simp)
  rw [ha] at this
  exact Bool.false_ne_true this

theorem goTrim_length_le (l : List Char) : (goTrim l).length ≤ l.length := by
  rw [goTrim_def]
  have hp := List.rdropWhile_prefix goIsSpace (l.dropWhile goIsSpace)
  exact le_trans hp.sublist.length_le (List.dropWhile_sublist _).length_le

theorem goTrim_drop_le (size : ℕ) (p : List Char) :
    (goTrim (p.drop size)).length ≤ p.length - size := by
  calc (goTrim (p.drop size)).length ≤ (p.drop size).length := goTrim_length_le _
    _ = p.length - size := List.length_drop size p

theorem wrapParaF_mem_length (size : ℕ) (hs : 0 < size) (fuel : ℕ) :
    ∀ p : List Char, p.length ≤ fuel → ∀ c ∈ wrapParaF size fuel p, c.length ≤ size := by
  induction fuel with
  | zero =>
    intro p hf c hc
    have hp : p = [] := List.eq_nil_of_length_eq_zero (by omega)
    rw [wrapParaF, if_pos hp] at hc
    exact absurd hc (List.not_mem_nil c)
  | succ fuel ih =>
    intro p hf c hc
    rw [wrapParaF] at hc
    by_cases hx : size < p.length
    · rw [if_pos hx] at hc
      rcases List.mem_cons.mp hc with hc | hc
      · subst hc
        calc (goTrim (p.take size)).length ≤ (p.take size).length := goTrim_length_le _
          _ ≤ size := by simp [List.length_take]
      · exact ih _ (by have := goTrim_drop_le size p; omega) c hc
    · rw [if_neg hx] at hc
      by_cases hp : p = []
      · rw [if_pos hp] at hc
        exact absurd hc (List.not_mem_nil c)
      · rw [if_neg hp] at hc
        rcases List.mem_cons.mp hc with hc | hc
        · subst hc
          omega
        · exact absurd hc (List.not_mem_nil c)

theorem wrapParaF_mem_trim (size : ℕ) (hs : 0 < size) (fuel : ℕ) :
    ∀ p : List Char, goTrim p = p → ∀ c ∈ wrapParaF size fuel p, c ≠ [] ∧ goTrim c = c := by
  induction fuel with
  | zero =>
    intro p hp c hc
    rw [wrapParaF] at hc
    by_cases hn : p = []
    · rw [if_pos hn] at hc
      exact absurd hc (List.not_mem_nil c)
    · rw [if_neg hn] at hc
      rcases List.mem_cons.mp hc with hc | hc
      · subst hc
        exact ⟨hn, hp⟩
      · exact absurd hc (List.not_mem_nil c)
  | succ fuel ih =>
    intro p hp c hc
    rw [wrapParaF] at hc
    by_cases hx : size < p.length
    · rw [if_pos hx] at hc
      rcases List.mem_cons.mp hc with hc | hc
      · subst hc
        rcases p with _ | ⟨a, t⟩
        · simp at hx
        · have ha : goIsSpace a = false := goTrim_head_not _ _ _ hp
          rcases Nat.exists_eq_add_of_lt hs with ⟨s2, hsz⟩
          have hsz' : size = s2 + 1 := by omega
          subst hsz'
          rw [List.take_succ_cons]
          exact ⟨goTrim_cons_ne_nil a _ ha, goTrim_idem _⟩
      · exact ih _ (goTrim_idem _) c hc
    · rw [if_neg hx] at hc
      by_cases hn : p = []
      · rw [if_pos hn] at hc
        exact absurd hc (List.not_mem_nil c)
      · rw [if_neg hn] at hc
        rcases List.mem_cons.mp hc with hc | hc
        · subst hc
          exact ⟨hn, hp⟩
        · exact absurd hc (List.not_mem_nil c)

theorem effChunkSize_of_pos (cs : Int) (h : 0 < cs) : effChunkSize cs = cs.toNat := by
  unfold effChunkSize
  rw [if_neg (by omega)]

theorem effChunkSize_pos (cs : Int) : 0 < effChunkSize cs := by
  unfold effChunkSize
  split
  · omega
  · omega

theorem chunkText_mem (text : List Char) (cs : Int) (c : List Char)
    (hc : c ∈ chunkText text cs) :
    ∃ para, c ∈ wrapPara (effChunkSize cs) (goTrim para) := by
  rw [chunkText] at hc
  split at hc
  · exact absurd hc (List.not_mem_nil c)
  · rw [List.mem_flatMap] at hc
    obtain ⟨para, _, hcw⟩ := hc
    exact ⟨para, hcw⟩

/-- C9: for every input text and every `maxSize > 0`, no chunk returned by
`chunkText` exceeds `maxSize` characters; chunking the empty string yields
the empty sequence; and `maxSize <= 0` behaves exactly as the fixed
default of 800 characters. -/
theorem chunkText_bounds :
    (∀ (text : List Char) (ms : Int), 0 < ms →
      ∀ c ∈ chunkText text ms, c.length ≤ ms.toNat) ∧
    (∀ ms : Int, chunkText [] ms = []) ∧
    (∀ (text : List Char) (ms : Int), ms ≤ 0 → chunkText text ms = chunkText text 800) := by
  refine ⟨?_, ?_, ?_⟩
  · intro text ms hms c hc
    obtain ⟨para, hcw⟩ := chunkText_mem text ms c hc
    have := wrapParaF_mem_length (effChunkSize ms) (effChunkSize_pos ms) _ (goTrim para) le_rfl c hcw
    rwa [effChunkSize_of_pos ms hms] at this
  · intro ms
    rw [chunkText]
    have : goTrim ([] : List Char) = [] := by simp [goTrim_def, List.dropWhile]
    rw [if_pos this]
  · intro text ms hms
    have h1 : effChunkSize ms = effChunkSize 800 := by
      unfold effChunkSize
      rw [if_pos hms, if_neg (by norm_num)]
      rfl
    simp only [chunkText]
    rw [h1]

/-- Witness for C9 at the concrete text `"abcdefgh"` with `maxSize = 3`. -/
theorem chunkText_bounds_witness :
    (('a' :: 'b' :: 'c' :: []).length ≤ (3 : Int).toNat) ∧
    chunkText [] 3 = [] ∧
    chunkText ('x' :: []) (-3) = chunkText ('x' :: []) 800 :=
  ⟨chunkText_bounds.1 "abcdefgh".data 3 (by norm_num) ('a' :: 'b' :: 'c' :: []) (by decide),
   chunkText_bounds.2.1 3,
   chunkText_bounds.2.2 ('x' :: []) (-3) (by norm_num)⟩

/-- C10: every chunk emitted by `chunkText` is non-empty and carries no
leading or trailing white space (it is a fixed point of trimming). -/
theorem chunkText_trimmed (text : List Char) (cs : Int) :
    ∀ c ∈ chunkText text cs, c ≠ [] ∧ goTrim c = c := by
  intro c hc
  obtain ⟨para, hcw⟩ := chunkText_mem text cs c hc
  exact wrapParaF_mem_trim _ (effChunkSize_pos cs) _ _ (goTrim_idem para) c hcw

/-- Witness for C10 at the concrete text `"  hi  "`. -/
theorem chunkText_trimmed_witness :
    ('h' :: 'i' :: []) ≠ [] ∧ goTrim ('h' :: 'i' :: []) = 'h' :: 'i' :: [] :=
  chunkText_trimmed "  hi  ".data 800 ('h' :: 'i' :: []) (by decide)

/-! Lemmas for the id-derivation claim. -/

theorem hexDigit_toNat_of_lt (d : ℕ) (h : d < 10) : (hexDigit d).toNat = 48 + d := by
  unfold hexDigit
  rw [if_pos h]
  have hv : Nat.isValidChar (48 + d) := Or.inl (by omega)
  rw [Char.ofNat, dif_pos hv]
  rfl

theorem decValRev_natDigitsRev (n : ℕ) : decValRev (natDigitsRev n) = n := by
  induction n using natDigitsRev.induct with
  | case1 =>
    rw [natDigitsRev]
    rfl
  | case2 n ih =>
    rw [natDigitsRev, decValRev, ih, hexDigit_toNat_of_lt _ (Nat.mod_lt _ (by norm_num))]
    omega

theorem natDecimal_inj (n m : ℕ) (h : natDecimal n = natDecimal m) : n = m := by
  unfold natDecimal at h
  by_cases hn : n = 0 <;> by_cases hm : m = 0
  · omega
  · exfalso
    rw [if_pos hn, if_neg hm] at h
    have hd : ('0' :: []) = (natDigitsRev m).reverse := congrArg String.data h
    have h3 : natDigitsRev m = '0' :: [] := by
      rw [← List.reverse_reverse (natDigitsRev m), ← hd]
      rfl
    have h4 := decValRev_natDigitsRev m
    rw [h3] at h4
    exact hm (by simpa using h4.symm)
  · exfalso
    rw [if_neg hn, if_pos hm] at h
    have hd : (natDigitsRev n).reverse = ('0' :: []) := congrArg String.data h
    have h3 : natDigitsRev n = '0' :: [] := by
      rw [← List.reverse_reverse (natDigitsRev n), hd]
      rfl
    have h4 := decValRev_natDigitsRev n
    rw [h3] at h4
    exact hn (by simpa using h4.symm)
  · rw [if_neg hn, if_neg hm] at h
    have hd : (natDigitsRev n).reverse = (natDigitsRev m).reverse := congrArg String.data h
    have h3 := List.reverse_injective hd
    rw [← decValRev_natDigitsRev n, ← decValRev_natDigitsRev m, h3]

theorem joinedKey_data (ns path : String) (o : ℕ) :
    (joinedKey ns path o).data =
      ns.data ++ '|' :: (path.data ++ '|' :: (natDecimal o).data) := by
  show (String.intercalate "|" [ns, path, natDecimal o]).data = _
  simp only [String.intercalate, String.intercalate.go, String.data_append]
  simp

/-- C8 counterexample: the id derivation is not injective in the
components: joining with `"|"` lets a namespace/path pair that moves the
separator produce the same hash input, hence the same id. -/
theorem deriveId_collision :
    deriveId "rag|a" "5" 0 = deriveId "rag" "a|5" 0 ∧
    ¬("rag|a" = "rag" ∧ "5" = "a|5") := by
  constructor
  · show stableID ["rag|a", "5", natDecimal 0] = stableID ["rag", "a|5", natDecimal 0]
    unfold stableID
    have h : String.intercalate "|" ["rag|a", "5", natDecimal 0] =
        String.intercalate "|" ["rag", "a|5", natDecimal 0] := by decide
    rw [h]
  · decide

/-- C8 amended: `deriveId` is deterministic (a pure function of its
arguments, hashing exactly the joined key `ns|path|ordinal`), and a change
to a single component — the other two fixed — always changes the hashed
input string; equal ids for such inputs would therefore require a SHA-256
collision, while a simultaneous change of several components can leave
the joined key (and so the id) unchanged, as the counterexample shows. -/
theorem deriveId_deterministic_joined_discriminating :
    (∀ (ns path : String) (o : ℕ),
      deriveId ns path o = deriveId ns path o ∧
      deriveId ns path o = sha256hex (strBytes (joinedKey ns path o))) ∧
    (∀ (ns ns2 path : String) (o : ℕ), ns ≠ ns2 →
      joinedKey ns path o ≠ joinedKey ns2 path o) ∧
    (∀ (ns path path2 : String) (o : ℕ), path ≠ path2 →
      joinedKey ns path o ≠ joinedKey ns path2 o) ∧
    (∀ (ns path : String) (o o2 : ℕ), o ≠ o2 →
      joinedKey ns path o ≠ joinedKey ns path o2) := by
  refine ⟨fun ns path o => ⟨rfl, rfl⟩, ?_, ?_, ?_⟩
  · intro ns ns2 path o hne heq
    have hd := congrArg String.data heq
    rw [joinedKey_data, joinedKey_data] at hd
    exact hne (String.ext (List.append_inj' hd rfl).1)
  · intro ns path path2 o hne heq
    have hd := congrArg String.data heq
    rw [joinedKey_data, joinedKey_data] at hd
    have h1 := List.append_cancel_left hd
    have h2 : path.data ++ '|' :: (natDecimal o).data =
        path2.data ++ '|' :: (natDecimal o).data := by
      injection h1
    exact hne (String.ext (List.append_inj' h2 rfl).1)
  · intro ns path o o2 hne heq
    have hd := congrArg String.data heq
    rw [joinedKey_data, joinedKey_data] at hd
    have h1 := List.append_cancel_left hd
    have h2 : path.data ++ '|' :: (natDecimal o).data =
        path.data ++ '|' :: (natDecimal o2).data := by
      injection h1
    have h3 := List.append_cancel_left h2
    have h4 : (natDecimal o).data = (natDecimal o2).data := by
      injection h3
    exact hne (natDecimal_inj o o2 (String.ext h4))

/-- Witness for the amended C8 at concrete components. -/
theorem deriveId_discriminating_witness :
    (deriveId "rag" "a" 0 = deriveId "rag" "a" 0 ∧
      deriveId "rag" "a" 0 = sha256hex (strBytes (joinedKey "rag" "a" 0))) ∧
    joinedKey "rag" "a" 0 ≠ joinedKey "conv" "a" 0 ∧
    joinedKey "rag" "a" 0 ≠ joinedKey "rag" "b" 0 ∧
    joinedKey "rag" "a" 0 ≠ joinedKey "rag" "a" 1 :=
  ⟨deriveId_deterministic_joined_discriminating.1 "rag" "a" 0,
   deriveId_deterministic_joined_discriminating.2.1 "rag" "conv" "a" 0 (by decide),
   deriveId_deterministic_joined_discriminating.2.2.1 "rag" "a" "b" 0 (by decide),
   deriveId_deterministic_joined_discriminating.2.2.2 "rag" "a" 0 1 (by decide)⟩

/-! Lemmas about the insertion-sort model of `sort.Slice`. -/

theorem insertLe_perm {α : Type} (le : α → α → Bool) (x : α) (l : List α) :
    List.Perm (insertLe le x l) (x :: l) := by
  induction l with
  | nil => exact List.Perm.refl _
  | cons y ys ih =>
    rw [insertLe]
    by_cases h : le x y = true
    · rw [if_pos h]
    · rw [if_neg h]
      exact (List.Perm.cons y ih).trans (List.Perm.swap x y ys)

theorem sortLe_perm {α : Type} (le : α → α → Bool) (l : List α) :
    List.Perm (sortLe le l) l := by
  induction l with
  | nil => exact List.Perm.refl _
  | cons x xs ih =>
    rw [sortLe]
    exact (insertLe_perm le x (sortLe le xs)).trans (List.Perm.cons x ih)

theorem insertLe_pairwise {α : Type} (le : α → α → Bool)
    (htrans : ∀ a b c, le a b = true → le b c = true → le a c = true)
    (htotal : ∀ a b, le a b = true ∨ le b a = true) (x : α) (l : List α)
    (hl : l.Pairwise fun a b => le a b = true) :
    (insertLe le x l).Pairwise fun a b => le a b = true := by
  induction l with
  | nil => simp [insertLe]
  | cons y ys ih =>
    rw [insertLe]
    by_cases h : le x y = true
    · rw [if_pos h]
      refine List.Pairwise.cons ?_ hl
      intro z hz
      rcases List.mem_cons.mp hz with rfl | hz
      · exact h
      · exact htrans x y z h (List.rel_of_pairwise_cons hl hz)
    · rw [if_neg h]
      have hyx : le y x = true := (htotal x y).resolve_left h
      refine List.Pairwise.cons ?_ (ih (List.Pairwise.of_cons hl))
      intro z hz
      rcases List.mem_cons.mp ((insertLe_perm le x ys).mem_iff.mp hz) with rfl | hz2
      · exact hyx
      · exact List.rel_of_pairwise_cons hl hz2

theorem sortLe_pairwise {α : Type} (le : α → α → Bool)
    (htrans : ∀ a b c, le a b = true → le b c = true → le a c = true)
    (htotal : ∀ a b, le a b = true ∨ le b a = true) (l : List α) :
    (sortLe le l).Pairwise fun a b => le a b = true := by
  induction l with
  | nil => simp [sortLe]
  | cons x xs ih =>
    rw [sortLe]
    exact insertLe_pairwise le htrans htotal x _ ih

/-! Lemmas about RRF contributions. -/

theorem rrfContrib_of_not_mem (k : ℕ) (l : List String) (id : String) (h : id ∉ l) :
    rrfContrib k l id = 0 := by
  induction l generalizing k with
  | nil => rfl
  | cons x xs ih =>
    rw [List.mem_cons, not_or] at h
    rw [rrfContrib, if_neg (fun hx => h.1 hx.symm), ih (k + 1) h.2]
    norm_num

theorem rrfContrib_of_get (k : ℕ) (l : List String) (r : ℕ) (id : String)
    (hnd : l.Nodup) (hr : l.get? r = some id) :
    rrfContrib k l id = 1 / ((k : ℚ) + (r : ℚ) + 1) := by
  induction l generalizing k r with
  | nil => simp at hr
  | cons x xs ih =>
    rcases r with _ | r2
    · rw [List.get?_cons_zero] at hr
      injection hr with hx
      rw [rrfContrib, if_pos hx]
      have hnot : id ∉ xs := by
        subst hx
        exact (List.nodup_cons.mp hnd).1
      rw [rrfContrib_of_not_mem _ _ _ hnot]
      push_cast
      ring
    · rw [List.get?_cons_succ] at hr
      have hx : x ≠ id := by
        intro hxe
        subst hxe
        exact (List.nodup_cons.mp hnd).1 (List.get?_mem hr)
      rw [rrfContrib, if_neg hx, ih (k + 1) r2 (List.nodup_cons.mp hnd).2 hr]
      push_cast
      ring

/-- C2: RRF fusion contributions, summation across the two lists, the
descending ordering of the fused output for every valid enumeration of
the score map's keys, the concrete `b` versus `d` comparison, and the
empty-input case. -/
theorem rrfFuse_spec :
    (∀ (a : List String) (id : String) (r : ℕ),
      a.Nodup → a.get? r = some id →
      rrfContrib 60 a id = 1 / (60 + (r : ℚ) + 1)) ∧
    (∀ (a : List String) (id : String), id ∉ a → rrfContrib 60 a id = 0) ∧
    (∀ (a b : List String) (id : String),
      rrfScore 60 a b id = rrfContrib 60 a id + rrfContrib 60 b id) ∧
    (∀ (a b iter : List String), iter.Perm (rrfKeys a b) →
      (rrfFuseIDs a b 60 iter).Perm (rrfKeys a b) ∧
      (rrfFuseIDs a b 60 iter).Pairwise fun x y =>
        rrfScore 60 a b y ≤ rrfScore 60 a b x) ∧
    rrfScore 60 ["a", "b", "c"] ["b", "c", "d"] "d" <
      rrfScore 60 ["a", "b", "c"] ["b", "c", "d"] "b" ∧
    (∀ iter : List String, iter.Perm (rrfKeys [] []) → rrfFuseIDs [] [] 60 iter = []) := by
  refine ⟨?_, ?_, ?_, ?_, ?_, ?_⟩
  · intro a id r hnd hr
    have := rrfContrib_of_get 60 a r id hnd hr
    rwa [show ((60 : ℕ) : ℚ) = 60 by norm_num] at this
  · intro a id h
    exact rrfContrib_of_not_mem 60 a id h
  · intro a b id
    rfl
  · intro a b iter hiter
    constructor
    · exact (sortLe_perm _ iter).trans hiter
    · have hp := sortLe_pairwise
        (fun x y => decide (rrfScore 60 a b y ≤ rrfScore 60 a b x))
        (fun x y z hxy hyz => by
          rw [decide_eq_true_iff] at hxy hyz ⊢
          exact le_trans hyz hxy)
        (fun x y => by
          rcases le_total (rrfScore 60 a b y) (rrfScore 60 a b x) with h | h
          · exact Or.inl (decide_eq_true h)
          · exact Or.inr (decide_eq_true h))
        iter
      exact hp.imp fun h => of_decide_eq_true h
  · norm_num +decide [rrfScore, rrfContrib]
  · intro iter hiter
    have : iter = [] := List.Perm.eq_nil hiter
    subst this
    rfl

/-- Witness for C2 at concrete lists and a concrete key enumeration. -/
theorem rrfFuse_spec_witness :
    rrfContrib 60 ["a", "b"] "b" = 1 / (60 + ((1 : ℕ) : ℚ) + 1) ∧
    rrfContrib 60 ["a"] "z" = 0 ∧
    rrfScore 60 ["x"] ["y"] "x" =
      rrfContrib 60 ["x"] "x" + rrfContrib 60 ["y"] "x" ∧
    ((rrfFuseIDs ["x"] ["y"] 60 ["x", "y"]).Perm (rrfKeys ["x"] ["y"]) ∧
      (rrfFuseIDs ["x"] ["y"] 60 ["x", "y"]).Pairwise fun x y =>
        rrfScore 60 ["x"] ["y"] y ≤ rrfScore 60 ["x"] ["y"] x) ∧
    rrfFuseIDs [] [] 60 [] = [] :=
  ⟨rrfFuse_spec.1 ["a", "b"] "b" 1 (by decide) (by decide),
   rrfFuse_spec.2.1 ["a"] "z" (by decide),
   rrfFuse_spec.2.2.1 ["x"] ["y"] "x",
   rrfFuse_spec.2.2.2.1 ["x"] ["y"] ["x", "y"] (by decide),
   rrfFuse_spec.2.2.2.2.2 [] (by decide)⟩

/-- C7 (code bug): with tied fused scores, the output order of Go
`rrfFuseIDs` follows the iteration order of the score map, which the Go
runtime randomizes, and `sort.Slice` is not stable; two valid enumerations
of the same key set yield different output sequences, so hybrid fusion
ordering is not deterministic across runs. -/
theorem rrfFuse_tie_order_nondeterministic :
    (["x", "y"] : List String).Perm (rrfKeys ["x"] ["y"]) ∧
    (["y", "x"] : List String).Perm (rrfKeys ["x"] ["y"]) ∧
    rrfScore 60 ["x"] ["y"] "x" = rrfScore 60 ["x"] ["y"] "y" ∧
    rrfFuseIDs ["x"] ["y"] 60 ["x", "y"] ≠ rrfFuseIDs ["x"] ["y"] 60 ["y", "x"] := by
  have hxy : rrfScore 60 ["x"] ["y"] "y" ≤ rrfScore 60 ["x"] ["y"] "x" := by
    norm_num +decide [rrfScore, rrfContrib]
  have hyx : rrfScore 60 ["x"] ["y"] "x" ≤ rrfScore 60 ["x"] ["y"] "y" := by
    norm_num +decide [rrfScore, rrfContrib]
  have h1 : rrfFuseIDs ["x"] ["y"] 60 ["x", "y"] = ["x", "y"] := by
    simp [rrfFuseIDs, sortLe, insertLe, decide_eq_true hxy]
  have h2 : rrfFuseIDs ["x"] ["y"] 60 ["y", "x"] = ["y", "x"] := by
    simp [rrfFuseIDs, sortLe, insertLe, decide_eq_true hyx]
  refine ⟨by decide, by decide, le_antisymm hyx hxy, ?_⟩
  rw [h1, h2]
  decide

/-! Lemmas about the embedding client. -/

theorem mapUpsert_not_mem (m : List (String × List ℚ)) (key : String) (v : List ℚ)
    (h : key ∉ m.map Prod.fst) : mapUpsert m key v = m ++ [(key, v)] := by
  unfold mapUpsert
  rw [if_neg]
  intro hany
  rw [List.any_eq_true] at hany
  obtain ⟨e, he, heq⟩ := hany
  rw [decide_eq_true_iff] at heq
  exact h (heq ▸ List.mem_map_of_mem Prod.fst he)

theorem foldl_mapUpsert_append (pairs : List (Chunk × List ℚ)) :
    ∀ out : List (String × List ℚ),
      ((out.map Prod.fst) ++ pairs.map fun cv => cv.1.ID).Nodup →
      pairs.foldl (fun m cv => mapUpsert m cv.1.ID cv.2) out =
        out ++ pairs.map fun cv => (cv.1.ID, cv.2) := by
  induction pairs with
  | nil =>
    intro out _
    simp
  | cons cv rest ih =>
    intro out hnd
    rw [List.map_cons] at hnd
    have hp : List.Perm (out.map Prod.fst ++ cv.1.ID :: rest.map fun cv => cv.1.ID)
        (cv.1.ID :: (out.map Prod.fst ++ rest.map fun cv => cv.1.ID)) :=
      List.perm_middle
    have hnd2 := hp.nodup_iff.mp hnd
    have hx : cv.1.ID ∉ out.map Prod.fst := fun hmem =>
      (List.nodup_cons.mp hnd2).1 (List.mem_append.mpr (Or.inl hmem))
    rw [List.foldl_cons, mapUpsert_not_mem _ _ _ hx]
    have hnd3 : (((out ++ [(cv.1.ID, cv.2)]).map Prod.fst) ++
        rest.map fun cv => cv.1.ID).Nodup := by
      rw [List.map_append]
      simpa [List.append_assoc] using hnd
    rw [ih _ hnd3, List.map_cons, List.append_assoc]
    rfl

theorem zip_map_fst_id (bat : List Chunk) (v : List (List ℚ)) (h : bat.length ≤ v.length) :
    (bat.zip v).map (fun cv => cv.1.ID) = bat.map Chunk.ID := by
  have h1 : (bat.zip v).map (fun cv => cv.1.ID) =
      ((bat.zip v).map Prod.fst).map Chunk.ID := by
    rw [List.map_map]
    rfl
  rw [h1, List.map_fst_zip bat v h]

theorem hfEmbedGoF_ok (provider : ℕ → List String → ProviderResp) (batch : ℕ)
    (hb : 0 < batch)
    (hgood : ∀ i texts, ∃ v, provider i texts = .ok v ∧ v.length = texts.length) (fuel : ℕ) :
    ∀ (rem : List Chunk) (callIdx : ℕ) (out : List (String × List ℚ)),
      rem.length ≤ fuel →
      ((out.map Prod.fst) ++ rem.map Chunk.ID).Nodup →
      (hfEmbedGoF provider batch fuel callIdx out rem).1 =
        (chunkBatchesF batch fuel rem).map (List.map Chunk.Text) ∧
      ∃ m, (hfEmbedGoF provider batch fuel callIdx out rem).2 = .ok m ∧
        m.map Prod.fst = out.map Prod.fst ++ rem.map Chunk.ID := by
  induction fuel with
  | zero =>
    intro rem callIdx out hf _
    have hrem : rem = [] := List.eq_nil_of_length_eq_zero (by omega)
    subst hrem
    refine ⟨rfl, out, rfl, ?_⟩
    all_goals simp
  | succ fuel ih =>
    intro rem callIdx out hf hnd
    by_cases hrem : rem = []
    · subst hrem
      rw [hfEmbedGoF, if_pos rfl, chunkBatchesF, if_pos rfl]
      refine ⟨rfl, out, rfl, ?_⟩
      all_goals simp
    · obtain ⟨v, hok, hlen⟩ := hgood callIdx ((rem.take batch).map Chunk.Text)
      have hlen2 : v.length = (rem.take batch).length := by
        rw [hlen, List.length_map]
      have hsplit : rem.map Chunk.ID =
          (rem.take batch).map Chunk.ID ++ (rem.drop batch).map Chunk.ID := by
        rw [← List.map_append, List.take_append_drop]
      have hzips : ((rem.take batch).zip v).map (fun cv => cv.1.ID) =
          (rem.take batch).map Chunk.ID := zip_map_fst_id _ _ (by omega)
      have hnd1 : ((out.map Prod.fst ++ (rem.take batch).map Chunk.ID) ++
          (rem.drop batch).map Chunk.ID).Nodup := by
        rw [List.append_assoc, ← hsplit]
        exact hnd
      have hndfold : ((out.map Prod.fst) ++
          ((rem.take batch).zip v).map fun cv => cv.1.ID).Nodup := by
        rw [hzips]
        exact List.Nodup.sublist
          ((List.sublist_append_left _ _).append_left (out.map Prod.fst))
          (by rwa [List.append_assoc] at hnd1)
      have hfold := foldl_mapUpsert_append ((rem.take batch).zip v) out hndfold
      have hout2keys : ((((rem.take batch).zip v).foldl
          (fun m cv => mapUpsert m cv.1.ID cv.2) out).map Prod.fst) =
          out.map Prod.fst ++ (rem.take batch).map Chunk.ID := by
        rw [hfold, List.map_append, ← hzips, List.map_map]
        rfl
      have hih := ih (rem.drop batch) (callIdx + 1)
        (((rem.take batch).zip v).foldl (fun m cv => mapUpsert m cv.1.ID cv.2) out)
        (by
          rw [List.length_drop]
          omega)
        (by rw [hout2keys]; exact hnd1)
      simp only [hfEmbedGoF, chunkBatchesF, if_neg hrem]
      simp only [hok]
      rw [if_neg (by omega : ¬v.length ≠ (rem.take batch).length)]
      constructor
      · rw [List.map_cons]
        exact congrArg _ hih.1
      · obtain ⟨m, hm, hkeys⟩ := hih.2
        refine ⟨m, hm, ?_⟩
        rw [hkeys, hout2keys, List.append_assoc, ← hsplit]

theorem hfEmbedGoF_error_of_fail (provider : ℕ → List String → ProviderResp) (batch : ℕ)
    (fuel : ℕ) :
    ∀ (rem : List Chunk) (callIdx : ℕ) (out : List (String × List ℚ)),
      (∃ i bat, (chunkBatchesF batch fuel rem).get? i = some bat ∧
        respFails (provider (callIdx + i) (bat.map Chunk.Text)) bat.length) →
      (hfEmbedGoF provider batch fuel callIdx out rem).2.isOk = false := by
  induction fuel with
  | zero =>
    intro rem callIdx out hfail
    obtain ⟨i, bat, hget, _⟩ := hfail
    rw [show chunkBatchesF batch 0 rem = [] from rfl] at hget
    simp at hget
  | succ fuel ih =>
    intro rem callIdx out hfail
    by_cases hrem : rem = []
    · obtain ⟨i, bat, hget, _⟩ := hfail
      rw [chunkBatchesF, if_pos hrem] at hget
      simp at hget
    · simp only [hfEmbedGoF, if_neg hrem]
      obtain ⟨i, bat, hget, hresp⟩ := hfail
      rw [chunkBatchesF, if_neg hrem] at hget
      rcases hprov : provider callIdx ((rem.take batch).map Chunk.Text) with m | ⟨st, body⟩ | m | vecs
      · rfl
      · rfl
      · rfl
      · simp only []
        rcases i with _ | j
        · rw [List.get?_cons_zero] at hget
          injection hget with hbat
          subst hbat
          rw [Nat.add_zero, hprov] at hresp
          have hne : vecs.length ≠ (rem.take batch).length := by
            simpa [respFails, List.length_map] using hresp
          rw [if_pos hne]
          rfl
        · by_cases hne : vecs.length ≠ (rem.take batch).length
          · rw [if_pos hne]
            rfl
          · rw [if_neg hne]
            rw [List.get?_cons_succ] at hget
            exact ih (rem.drop batch) (callIdx + 1) _
              ⟨j, bat, hget, by
                have harith : callIdx + 1 + j = callIdx + (j + 1) := by omega
                rw [harith]
                exact hresp⟩

/-- C4: if any batch of an `Embed` call fails — a transport error, a
non-success provider response, a malformed response, or a response array
whose length differs from the batch's — the whole call returns an error:
no map at all is returned (the `Except` result carries no partial map of
the earlier, successful batches). -/
theorem hfEmbed_all_or_nothing (provider : ℕ → List String → ProviderResp) (batch : ℕ)
    (chunks : List Chunk) (_hb : 0 < batch)
    (hfail : ∃ i bat, (chunkBatches batch chunks).get? i = some bat ∧
      respFails (provider i (bat.map Chunk.Text)) bat.length) :
    (hfEmbed provider batch chunks).2.isOk = false := by
  by_cases hc : chunks = []
  · subst hc
    obtain ⟨i, bat, hget, _⟩ := hfail
    rw [show chunkBatches batch [] = [] from rfl] at hget
    simp at hget
  · rw [hfEmbed, if_neg hc]
    refine hfEmbedGoF_error_of_fail provider batch chunks.length chunks 0 [] ?_
    obtain ⟨i, bat, hget, hresp⟩ := hfail
    exact ⟨i, bat, hget, by rwa [Nat.zero_add]⟩

/-- Witness for C4: the second batch's transport error makes the whole
two-chunk-per-batch call fail. -/
theorem hfEmbed_all_or_nothing_witness :
    (hfEmbed
      (fun i ts => if i = 1 then .transport "boom" else .ok (ts.map fun _ => [1]))
      2 [⟨"i1", "t1"⟩, ⟨"i2", "t2"⟩, ⟨"i3", "t3"⟩]).2.isOk = false :=
  hfEmbed_all_or_nothing _ 2 _ (by norm_num)
    ⟨1, [⟨"i3", "t3"⟩], by decide, by exact trivial⟩

theorem chunkBatchesF_mem (batch : ℕ) (hb : 0 < batch) (fuel : ℕ) :
    ∀ chunks : List Chunk, ∀ bat ∈ chunkBatchesF batch fuel chunks,
      bat.length ≤ batch ∧ bat ≠ [] := by
  induction fuel with
  | zero =>
    intro chunks bat hbat
    simp [chunkBatchesF] at hbat
  | succ fuel ih =>
    intro chunks bat hbat
    by_cases hc : chunks = []
    · rw [chunkBatchesF, if_pos hc] at hbat
      simp at hbat
    · rw [chunkBatchesF, if_neg hc] at hbat
      rcases List.mem_cons.mp hbat with hbat | hbat
      · subst hbat
        refine ⟨by simp [List.length_take], ?_⟩
        rw [Ne, List.take_eq_nil_iff]
        push_neg
        exact ⟨by omega, hc⟩
      · exact ih _ bat hbat

theorem chunkBatchesF_flatten (batch : ℕ) (hb : 0 < batch) (fuel : ℕ) :
    ∀ chunks : List Chunk, chunks.length ≤ fuel →
      (chunkBatchesF batch fuel chunks).flatten = chunks := by
  induction fuel with
  | zero =>
    intro chunks hf
    rw [List.eq_nil_of_length_eq_zero (by omega : chunks.length = 0)]
    rfl
  | succ fuel ih =>
    intro chunks hf
    by_cases hc : chunks = []
    · subst hc
      rfl
    · rw [chunkBatchesF, if_neg hc, List.flatten_cons,
        ih _ (by rw [List.length_drop]; omega), List.take_append_drop]

theorem chunkBatches_sizes_130 (chunks : List Chunk) (h : chunks.length = 130) :
    (chunkBatches 64 chunks).map List.length = [64, 64, 2] := by
  unfold chunkBatches
  rw [h]
  have h1 : chunks ≠ [] := by
    intro hh
    rw [hh] at h
    simp at h
  have hd1 : (chunks.drop 64).length = 66 := by rw [List.length_drop, h]
  have h2 : chunks.drop 64 ≠ [] := by
    intro hh
    rw [hh] at hd1
    simp at hd1
  have hd2 : ((chunks.drop 64).drop 64).length = 2 := by rw [List.length_drop, hd1]
  have h3 : (chunks.drop 64).drop 64 ≠ [] := by
    intro hh
    rw [hh] at hd2
    simp at hd2
  have h4 : (((chunks.drop 64).drop 64).drop 64) = [] :=
    List.eq_nil_of_length_eq_zero (by rw [List.length_drop, hd2])
  rw [show (130 : ℕ) = 129 + 1 by norm_num, chunkBatchesF, if_neg h1,
    show (129 : ℕ) = 128 + 1 by norm_num, chunkBatchesF, if_neg h2,
    show (128 : ℕ) = 127 + 1 by norm_num, chunkBatchesF, if_neg h3,
    show (127 : ℕ) = 126 + 1 by norm_num, chunkBatchesF, if_pos h4]
  simp [List.length_take, h, hd1, hd2]

/-- C5: the embedding client partitions its input into consecutive
batches of at most the batch size, one provider request per batch; for a
successful call the issued requests are exactly the batches' texts and
the returned map is keyed by the input ids, one entry per chunk; for 130
chunks and batch size 64 the batches carry 64, 64 and 2 texts. -/
theorem hfEmbed_batching (provider : ℕ → List String → ProviderResp) (batch : ℕ)
    (chunks : List Chunk) (hb : 0 < batch) :
    (∀ bat ∈ chunkBatches batch chunks, bat.length ≤ batch ∧ bat ≠ []) ∧
    (chunkBatches batch chunks).flatten = chunks ∧
    ((∀ i texts, ∃ v, provider i texts = .ok v ∧ v.length = texts.length) →
      (chunks.map Chunk.ID).Nodup →
      (hfEmbed provider batch chunks).1 =
        (chunkBatches batch chunks).map (List.map Chunk.Text) ∧
      ∃ m, (hfEmbed provider batch chunks).2 = .ok m ∧
        m.map Prod.fst = chunks.map Chunk.ID ∧ m.length = chunks.length) ∧
    (chunks.length = 130 → batch = 64 →
      (chunkBatches batch chunks).map List.length = [64, 64, 2]) := by
  refine ⟨chunkBatchesF_mem batch hb chunks.length chunks,
    chunkBatchesF_flatten batch hb chunks.length chunks le_rfl, ?_, ?_⟩
  · intro hgood hnd
    by_cases hc : chunks = []
    · subst hc
      exact ⟨rfl, [], rfl, rfl, rfl⟩
    · have := hfEmbedGoF_ok provider batch hb hgood chunks.length chunks 0 [] le_rfl
        (by simpa using hnd)
      rw [hfEmbed, if_neg hc]
      refine ⟨this.1, ?_⟩
      obtain ⟨m, hm, hkeys⟩ := this.2
      rw [List.map_nil, List.nil_append] at hkeys
      refine ⟨m, hm, hkeys, ?_⟩
      have := congrArg List.length hkeys
      simpa using this
  · intro h130 hbat
    subst hbat
    exact chunkBatches_sizes_130 chunks h130

/-- Witness for C5: a successful three-chunk call with batch size 2, and
the 64/64/2 partition of the 130-chunk input. -/
theorem hfEmbed_batching_witness :
    (∀ bat ∈ chunkBatches 2 [⟨"a", "s"⟩, ⟨"b", "t"⟩, ⟨"c", "u"⟩],
      bat.length ≤ 2 ∧ bat ≠ []) ∧
    ((hfEmbed echoProvider 2 [⟨"a", "s"⟩, ⟨"b", "t"⟩, ⟨"c", "u"⟩]).1 =
      (chunkBatches 2 [⟨"a", "s"⟩, ⟨"b", "t"⟩, ⟨"c", "u"⟩]).map (List.map Chunk.Text) ∧
      ∃ m, (hfEmbed echoProvider 2 [⟨"a", "s"⟩, ⟨"b", "t"⟩, ⟨"c", "u"⟩]).2 = .ok m ∧
        m.map Prod.fst = ["a", "b", "c"] ∧ m.length = 3) ∧
    (chunkBatches 64 chunks130).map List.length = [64, 64, 2] := by
  have hgood : ∀ i texts, ∃ v, echoProvider i texts = .ok v ∧ v.length = texts.length :=
    fun i texts => ⟨texts.map fun _ => [1], rfl, List.length_map _ _⟩
  have h130len : chunks130.length = 130 := by
    rw [chunks130, List.length_map, List.length_range]
  refine ⟨(hfEmbed_batching echoProvider 2 _ (by norm_num)).1, ?_, ?_⟩
  · exact (hfEmbed_batching echoProvider 2
      [⟨"a", "s"⟩, ⟨"b", "t"⟩, ⟨"c", "u"⟩] (by norm_num)).2.2.1 hgood (by decide)
  · exact (hfEmbed_batching echoProvider 64 chunks130 (by norm_num)).2.2.2 h130len rfl

/-! Lemmas about the ingestion walk. -/

theorem processFile_isOk_independent_of_upserts
    (provider : String → ℕ → List String → ProviderResp)
    (upsertOk upsertOk2 : String → Bool) (size : Int) (f : GoFile) :
    (processFile provider upsertOk size f).isOk =
      (processFile provider upsertOk2 size f).isOk := by
  rcases f with ⟨path, content⟩
  rcases content with e | raw
  · rfl
  · simp only [processFile]
    by_cases h1 : goTrim raw.data = []
    · rw [if_pos h1, if_pos h1]
    · rw [if_neg h1, if_neg h1]
      by_cases h2 : chunkText (goTrim raw.data) size = []
      · rw [if_pos h2, if_pos h2]
      · rw [if_neg h2, if_neg h2]
        rcases (hfEmbed (provider path) 64
            (embedInputsOf path (chunkText (goTrim raw.data) size))).2 with e | vecs
        · rfl
        · rfl

theorem walkFiles_isOk_iff (provider : String → ℕ → List String → ProviderResp)
    (upsertOk : String → Bool) (size : Int) (files : List GoFile) :
    (walkFiles provider upsertOk size files).isOk = true ↔
      ∀ f ∈ files, (processFile provider upsertOk size f).isOk = true := by
  induction files with
  | nil =>
    constructor
    · intro _ f hf
      exact absurd hf (List.not_mem_nil f)
    · intro _
      rfl
  | cons f fs ih =>
    rw [walkFiles]
    rcases hf : processFile provider upsertOk size f with e | ⟨c, l⟩
    · constructor
      · intro h
        exact Bool.noConfusion h
      · intro h
        have h2 := h f (List.mem_cons_self f fs)
        rw [hf] at h2
        exact Bool.noConfusion h2
    · rcases hw : walkFiles provider upsertOk size fs with e2 | ⟨n, corpus⟩
      · constructor
        · intro h
          exact Bool.noConfusion h
        · intro h
          have h2 : ∀ g ∈ fs, (processFile provider upsertOk size g).isOk = true :=
            fun g hg => h g (List.mem_cons_of_mem f hg)
          have h3 := ih.mpr h2
          rw [hw] at h3
          exact Bool.noConfusion h3
      · constructor
        · intro _ g hg
          rcases List.mem_cons.mp hg with rfl | hg2
          · rw [hf]
            rfl
          · exact ih.mp (by rw [hw]; rfl) g hg2
        · intro _
          rfl

theorem isError_of_isOk_false {α : Type} (e : Except String α) (h : e.isOk = false) :
    ∃ msg, e = .error msg := by
  rcases e with msg | v
  · exact ⟨msg, rfl⟩
  · exact Bool.noConfusion h

/-- C3 counterexample: a corpus of two readable files in which only the
first file's embedding call fails.  The claim says the walk continues over
the remaining files; the code instead returns the embedding error from
the `WalkDir` callback, which stops the whole walk: the second file is
never indexed and no BM25 index is rebuilt. -/
theorem ingestion_embed_abort_counterexample :
    loadDocumentsFromDataDir boomProvider (fun _ => true) 800
      [⟨"f1", .ok "hello"⟩, ⟨"f2", .ok "world"⟩] = .error "embedding f1: boom" ∧
    (∀ n corpus, loadDocumentsFromDataDir boomProvider (fun _ => true) 800
      [⟨"f1", .ok "hello"⟩, ⟨"f2", .ok "world"⟩] ≠ .ok (n, corpus)) ∧
    ingestIndex asciiCfg boomProvider (fun _ => true) 800
      [⟨"f1", .ok "hello"⟩, ⟨"f2", .ok "world"⟩] = none := by
  have h : loadDocumentsFromDataDir boomProvider (fun _ => true) 800
      [⟨"f1", .ok "hello"⟩, ⟨"f2", .ok "world"⟩] = .error "embedding f1: boom" := by decide
  refine ⟨h, ?_, ?_⟩
  · intro n corpus hok
    rw [h] at hok
    exact Except.noConfusion hok
  · rw [ingestIndex, h]

/-- C3 amended: a failed upsert of one chunk is logged and skipped without
stopping the remaining chunks and files — whether a file's processing
succeeds never depends on the store's upsert answers, and the walk
succeeds exactly when every file's callback does; but a failed embedding
call for one file's chunks aborts the entire walk (the embedding error is
returned from the `WalkDir` callback), so the remaining files are not
processed and the BM25 index is not rebuilt. -/
theorem ingestion_error_handling :
    (∀ (provider : String → ℕ → List String → ProviderResp)
      (upsertOk upsertOk2 : String → Bool) (size : Int) (f : GoFile),
      (processFile provider upsertOk size f).isOk =
        (processFile provider upsertOk2 size f).isOk) ∧
    (∀ (provider : String → ℕ → List String → ProviderResp)
      (upsertOk : String → Bool) (size : Int) (files : List GoFile),
      (walkFiles provider upsertOk size files).isOk = true ↔
        ∀ f ∈ files, (processFile provider upsertOk size f).isOk = true) ∧
    (∀ (cfg : TokCfg) (provider : String → ℕ → List String → ProviderResp)
      (upsertOk : String → Bool) (chunkLen : Int) (files : List GoFile) (f : GoFile),
      f ∈ files →
      (processFile provider upsertOk (if chunkLen ≤ 0 then 800 else chunkLen) f).isOk = false →
      ingestIndex cfg provider upsertOk chunkLen files = none) := by
  refine ⟨processFile_isOk_independent_of_upserts, walkFiles_isOk_iff, ?_⟩
  intro cfg provider upsertOk chunkLen files f hmem hbad
  have hwalk : (walkFiles provider upsertOk
      (if chunkLen ≤ 0 then 800 else chunkLen) files).isOk = false := by
    rcases hw : (walkFiles provider upsertOk
        (if chunkLen ≤ 0 then 800 else chunkLen) files).isOk with _ | _
    · rfl
    · have := (walkFiles_isOk_iff provider upsertOk _ files).mp hw f hmem
      rw [hbad] at this
      exact absurd this (by simp)
  obtain ⟨msg, hmsg⟩ := isError_of_isOk_false _ hwalk
  rw [ingestIndex, loadDocumentsFromDataDir, hmsg]

/-- Witness for the amended C3: a concrete two-file corpus whose first
file's embedding call fails; its membership and failure discharge the
hypotheses of the abort part. -/
theorem ingestion_error_handling_witness :
    (processFile boomProvider (fun _ => true) 800 ⟨"f1", .ok "hello"⟩).isOk =
      (processFile boomProvider (fun _ => false) 800 ⟨"f1", .ok "hello"⟩).isOk ∧
    ((walkFiles boomProvider (fun _ => true) 800 []).isOk = true ↔
      ∀ f ∈ ([] : List GoFile),
        (processFile boomProvider (fun _ => true) 800 f).isOk = true) ∧
    ingestIndex asciiCfg boomProvider (fun _ => true) 17
      [⟨"f1", .ok "hello"⟩, ⟨"f2", .ok "world"⟩] = none :=
  ⟨ingestion_error_handling.1 boomProvider _ _ 800 _,
   ingestion_error_handling.2.1 boomProvider _ 800 [],
   ingestion_error_handling.2.2 asciiCfg boomProvider _ 17
     [⟨"f1", .ok "hello"⟩, ⟨"f2", .ok "world"⟩] ⟨"f1", .ok "hello"⟩
     (by decide) (by decide)⟩

theorem upsertFold_mem (upsertOk : String → Bool) (vecs : List (String × List ℚ))
    (inputs : List Chunk) :
    ∀ acc : ℕ × List BM25Doc, ∀ d ∈ (inputs.foldl
      (fun acc inp =>
        if chromaUpsertM upsertOk inp.ID (mapLookup vecs inp.ID) then
          (acc.1 + 1, acc.2 ++ [{ ID := inp.ID, Text := inp.Text }])
        else acc) acc).2,
      d ∈ acc.2 ∨ ∃ inp ∈ inputs, d = { ID := inp.ID, Text := inp.Text } ∧
        chromaUpsertM upsertOk inp.ID (mapLookup vecs inp.ID) = true := by
  induction inputs with
  | nil =>
    intro acc d hd
    exact Or.inl hd
  | cons inp rest ih =>
    intro acc d hd
    rw [List.foldl_cons] at hd
    by_cases hu : chromaUpsertM upsertOk inp.ID (mapLookup vecs inp.ID) = true
    · rw [if_pos hu] at hd
      rcases ih _ d hd with hacc | ⟨inp2, hinp2, hdd, hup⟩
      · rcases List.mem_append.mp hacc with hacc | hx
        · exact Or.inl hacc
        · rw [List.mem_singleton] at hx
          exact Or.inr ⟨inp, List.mem_cons_self inp rest, hx, hu⟩
      · exact Or.inr ⟨inp2, List.mem_cons_of_mem inp hinp2, hdd, hup⟩
    · rw [if_neg hu] at hd
      rcases ih _ d hd with hacc | ⟨inp2, hinp2, hdd, hup⟩
      · exact Or.inl hacc
      · exact Or.inr ⟨inp2, List.mem_cons_of_mem inp hinp2, hdd, hup⟩

theorem processFile_ok_mem (provider : String → ℕ → List String → ProviderResp)
    (upsertOk : String → Bool) (size : Int) (f : GoFile) (c : ℕ) (l : List BM25Doc)
    (hok : processFile provider upsertOk size f = .ok (c, l)) :
    ∀ d ∈ l, ∃ m v,
      (hfEmbed (provider f.path) 64 (fileInputs size f)).2 = .ok m ∧
      mapLookup m d.ID = some v ∧ upsertOk d.ID = true := by
  intro d hd
  rcases f with ⟨path, content⟩
  rcases content with e | raw
  · rw [show processFile provider upsertOk size ⟨path, .error e⟩ = .ok (0, []) from rfl]
      at hok
    injection hok with hpair
    injection hpair with _ hl
    rw [← hl] at hd
    exact absurd hd (List.not_mem_nil d)
  · simp only [processFile] at hok
    by_cases h1 : goTrim raw.data = []
    · rw [if_pos h1] at hok
      injection hok with hpair
      injection hpair with _ hl
      rw [← hl] at hd
      exact absurd hd (List.not_mem_nil d)
    · rw [if_neg h1] at hok
      by_cases h2 : chunkText (goTrim raw.data) size = []
      · rw [if_pos h2] at hok
        injection hok with hpair
        injection hpair with _ hl
        rw [← hl] at hd
        exact absurd hd (List.not_mem_nil d)
      · rw [if_neg h2] at hok
        rcases hemb : (hfEmbed (provider path) 64
            (embedInputsOf path (chunkText (goTrim raw.data) size))).2 with e | vecs
        · rw [hemb] at hok
          exact absurd hok (by simp)
        · rw [hemb] at hok
          injection hok with hpair
          have hl : (( embedInputsOf path (chunkText (goTrim raw.data) size)).foldl
              (fun acc inp =>
                if chromaUpsertM upsertOk inp.ID (mapLookup vecs inp.ID) then
                  (acc.1 + 1, acc.2 ++ [{ ID := inp.ID, Text := inp.Text }])
                else acc) (0, [])).2 = l := congrArg Prod.snd hpair
          rw [← hl] at hd
          rcases upsertFold_mem upsertOk vecs _ _ d hd with hacc | ⟨inp, _, hdd, hup⟩
          · exact absurd hacc (List.not_mem_nil d)
          · refine ⟨vecs, ?_⟩
            have hid : d.ID = inp.ID := by rw [hdd]
            unfold chromaUpsertM at hup
            rw [Bool.and_eq_true, Bool.and_eq_true] at hup
            obtain ⟨⟨_, hsome⟩, hups⟩ := hup
            rcases hlook : mapLookup vecs inp.ID with _ | v
            · rw [hlook] at hsome
              exact absurd hsome (by simp [Option.isSome])
            · exact ⟨v, by
                rw [show fileInputs size ⟨path, .ok raw⟩ =
                  embedInputsOf path (chunkText (goTrim raw.data) size) from rfl]
                exact hemb, by rw [hid, hlook], by rw [hid]; exact hups⟩

theorem walkFiles_ok_mem (provider : String → ℕ → List String → ProviderResp)
    (upsertOk : String → Bool) (size : Int) (files : List GoFile) (n : ℕ)
    (corpus : List BM25Doc)
    (hok : walkFiles provider upsertOk size files = .ok (n, corpus)) :
    ∀ d ∈ corpus, ∃ f ∈ files, ∃ m v,
      (hfEmbed (provider f.path) 64 (fileInputs size f)).2 = .ok m ∧
      mapLookup m d.ID = some v ∧ upsertOk d.ID = true := by
  induction files generalizing n corpus with
  | nil =>
    intro d hd
    rw [show walkFiles provider upsertOk size [] = .ok (0, []) from rfl] at hok
    injection hok with hpair
    injection hpair with _ hl
    rw [← hl] at hd
    exact absurd hd (List.not_mem_nil d)
  | cons f fs ih =>
    intro d hd
    rw [walkFiles] at hok
    rcases hf : processFile provider upsertOk size f with e | r
    · rw [hf] at hok
      exact absurd hok (by simp)
    · rcases r with ⟨c, l⟩
      rw [hf] at hok
      rcases hw : walkFiles provider upsertOk size fs with e2 | r2
      · rw [hw] at hok
        exact absurd hok (by simp)
      · rcases r2 with ⟨n2, corpus2⟩
        rw [hw] at hok
        injection hok with hpair
        have hcorp : l ++ corpus2 = corpus := congrArg Prod.snd hpair
        rw [← hcorp] at hd
        rcases List.mem_append.mp hd with hdl | hdr
        · obtain ⟨m, v, hm, hv, hu⟩ := processFile_ok_mem provider upsertOk size f c l hf d hdl
          exact ⟨f, List.mem_cons_self f fs, m, v, hm, hv, hu⟩
        · obtain ⟨g, hg, m, v, hm, hv, hu⟩ := ih n2 corpus2 hw d hdr
          exact ⟨g, List.mem_cons_of_mem f hg, m, v, hm, hv, hu⟩

/-- C6: whenever an ingestion pass finishes and the BM25 index is rebuilt,
the rebuilt index's document list is exactly the accumulated corpus, and
every document in it was successfully embedded (its file's `Embed` call
returned a map containing its id with a vector) and successfully upserted
into the external store. -/
theorem ingestIndex_only_persisted_units (cfg : TokCfg)
    (provider : String → ℕ → List String → ProviderResp) (upsertOk : String → Bool)
    (chunkLen : Int) (files : List GoFile) (n : ℕ) (corpus : List BM25Doc)
    (hok : loadDocumentsFromDataDir provider upsertOk chunkLen files = .ok (n, corpus)) :
    ingestIndex cfg provider upsertOk chunkLen files = some (NewBM25Index cfg corpus) ∧
    (NewBM25Index cfg corpus).docs = corpus ∧
    ∀ d ∈ corpus, ∃ f ∈ files, ∃ m v,
      (hfEmbed (provider f.path) 64
        (fileInputs (if chunkLen ≤ 0 then 800 else chunkLen) f)).2 = .ok m ∧
      mapLookup m d.ID = some v ∧ upsertOk d.ID = true := by
  refine ⟨by rw [ingestIndex, hok], rfl, ?_⟩
  rw [loadDocumentsFromDataDir] at hok
  exact walkFiles_ok_mem provider upsertOk _ files n corpus hok

/-- Witness for C6: a one-file corpus ingested with an always-succeeding
provider and store; the indexed document's id is the SHA-256 of
`"rag|f|0"`. -/
theorem ingestIndex_only_persisted_units_witness :
    ingestIndex asciiCfg (fun _ => echoProvider) (fun _ => true) 800 [⟨"f", .ok "hi"⟩] =
      some (NewBM25Index asciiCfg
        [⟨"1e5e074f5ec97bd0e325c63b052ff3db01cf91307b185ea508d2ad54efd60985", "hi"⟩]) ∧
    ∃ f ∈ [(⟨"f", .ok "hi"⟩ : GoFile)], ∃ m v,
      (hfEmbed echoProvider 64 (fileInputs 800 f)).2 = .ok m ∧
      mapLookup m "1e5e074f5ec97bd0e325c63b052ff3db01cf91307b185ea508d2ad54efd60985" =
        some v ∧
      true = true := by
  have hok : loadDocumentsFromDataDir (fun _ => echoProvider) (fun _ => true) 800
      [⟨"f", .ok "hi"⟩] = .ok (1,
        [⟨"1e5e074f5ec97bd0e325c63b052ff3db01cf91307b185ea508d2ad54efd60985", "hi"⟩]) := by
    decide
  have main := ingestIndex_only_persisted_units asciiCfg (fun _ => echoProvider)
    (fun _ => true) 800 [⟨"f", .ok "hi"⟩] 1
    [⟨"1e5e074f5ec97bd0e325c63b052ff3db01cf91307b185ea508d2ad54efd60985", "hi"⟩] hok
  exact ⟨main.1, main.2.2
    ⟨"1e5e074f5ec97bd0e325c63b052ff3db01cf91307b185ea508d2ad54efd60985", "hi"⟩
    (List.mem_singleton.mpr rfl)⟩

/-! Lemmas for the BM25 claim. -/

theorem NewBM25Index_docs (cfg : TokCfg) (docs : List BM25Doc) :
    (NewBM25Index cfg docs).docs = docs := rfl

theorem zip_self_maps {α β γ : Type} (f : α → β) (g : α → γ) (l : List α) :
    l.zip ((l.map f).zip (l.map g)) = l.map fun x => (x, f x, g x) := by
  induction l with
  | nil => rfl
  | cons x xs ih => simp [ih]

theorem bm25_foldl_aux (log : ℚ → ℚ) (N avg : ℚ) (df tfd : List Char → ℕ) (dl : ℚ) :
    ∀ (qT : List (List Char)) (s : ℚ),
      qT.foldl
        (fun score t =>
          let f : ℚ := tfd t
          if f = 0 then score
          else
            let dfq : ℚ := df t
            let idf := log (1 + (N - dfq + 0.5) / (dfq + 0.5))
            let den := f + 1.5 * (1 - 0.75 + 0.75 * (dl / avg))
            score + idf * (f * (1.5 + 1) / den)) s =
      s + ((qT.filter fun t => 0 < tfd t).map fun t =>
        specIdf log N (df t) * ((tfd t : ℚ) * (1.5 + 1)) /
          ((tfd t : ℚ) + 1.5 * (1 - 0.75 + 0.75 * (dl / avg)))).sum := by
  intro qT
  induction qT with
  | nil =>
    intro s
    simp
  | cons t rest ih =>
    intro s
    rw [List.foldl_cons, List.filter_cons]
    by_cases hf : (tfd t : ℚ) = 0
    · have hfilt : decide (0 < tfd t) = false := by
        rw [decide_eq_false_iff_not]
        rw [Nat.cast_eq_zero] at hf
        omega
      rw [if_pos hf, hfilt, if_neg (by decide : ¬((false : Bool) = true))]
      exact ih s
    · have hf2 : 0 < tfd t := by
        rcases Nat.eq_zero_or_pos (tfd t) with h0 | h0
        · rw [h0] at hf
          simp at hf
        · exact h0
      have hfilt : decide (0 < tfd t) = true := decide_eq_true hf2
      rw [if_neg hf, hfilt, if_pos (rfl : (true : Bool) = true)]
      rw [ih]
      simp only [List.map_cons, List.sum_cons, specIdf]
      ring

theorem bm25ScoreAux_eq (log : ℚ → ℚ) (N avg : ℚ) (df tfd : List Char → ℕ) (dl : ℚ)
    (qT : List (List Char)) :
    bm25ScoreAux log N avg df tfd dl qT =
      ((qT.filter fun t => 0 < tfd t).map fun t =>
        specIdf log N (df t) * ((tfd t : ℚ) * (1.5 + 1)) /
          ((tfd t : ℚ) + 1.5 * (1 - 0.75 + 0.75 * (dl / avg)))).sum := by
  rw [bm25ScoreAux, bm25_foldl_aux, zero_add]

theorem bm25ScoreAux_eq_spec (cfg : TokCfg) (log : ℚ → ℚ) (docs : List BM25Doc)
    (query : String) (d : BM25Doc) :
    bm25ScoreAux log (docs.length : ℚ)
      (if 0 < docs.length then
        ((docs.map fun d2 => (docTokens cfg d2).length).sum : ℚ) / (docs.length : ℚ)
      else 0)
      (fun t => docs.countP fun d2 => decide (t ∈ docTokens cfg d2))
      (fun t => (docTokens cfg d).count t)
      ((docTokens cfg d).length : ℚ) (tokenize cfg query.data) =
    specBM25Score cfg log docs query d := by
  rw [bm25ScoreAux_eq]
  rfl

/-- C1: for every corpus, query and cutoff, BM25 `Search` returns exactly
the positively-scored documents — scored by the specification's formula
with `k1 = 1.5`, `b = 0.75` and `idf(t) = log(1 + (N − df(t) + 0.5)/(df(t) + 0.5))`
— sorted in descending score order, truncated to the top `k` ids. -/
theorem bm25Search_spec (cfg : TokCfg) (log : ℚ → ℚ) (docs : List BM25Doc)
    (query : String) (k : Int) :
    ∃ l : List (String × ℚ),
      l.Perm (specPositives cfg log docs query) ∧
      l.Pairwise (fun x y => y.2 ≤ x.2) ∧
      Search cfg log (NewBM25Index cfg docs) query k = (l.take k.toNat).map Prod.fst := by
  by_cases hd : docs.length = 0
  · have hnil : docs = [] := List.eq_nil_of_length_eq_zero hd
    subst hnil
    refine ⟨[], List.Perm.refl _, List.Pairwise.nil, ?_⟩
    simp only [Search, NewBM25Index_docs, List.length_nil]
    simp
  · by_cases hq : tokenize cfg query.data = []
    · refine ⟨[], ?_, List.Pairwise.nil, ?_⟩
      · have hnone : ∀ d ∈ docs,
            (fun d =>
              let s := specBM25Score cfg log docs query d
              if 0 < s then some (d.ID, s) else none) d = none := by
          intro d _
          have hzero : specBM25Score cfg log docs query d = 0 := by
            simp only [specBM25Score]
            rw [hq]
            simp
          simp only [hzero]
          norm_num
        rw [specPositives, List.filterMap_eq_nil_iff.mpr hnone]
      · simp only [Search, NewBM25Index_docs]
        rw [if_neg hd, if_pos hq]
        simp
    · set qT := tokenize cfg query.data with hqT
      set avg : ℚ :=
        if 0 < docs.length then
          ((docs.map fun d2 => (docTokens cfg d2).length).sum : ℚ) / (docs.length : ℚ)
        else 0 with havg
      set scored : List (String × ℚ) := docs.filterMap fun d =>
        let s := bm25ScoreAux log (docs.length : ℚ) avg
          (fun t => docs.countP fun d2 => decide (t ∈ docTokens cfg d2))
          (fun t => (docTokens cfg d).count t) ((docTokens cfg d).length : ℚ) qT
        if 0 < s then some (d.ID, s) else none with hscored
      have hspec : scored = specPositives cfg log docs query := by
        rw [hscored, specPositives]
        refine List.filterMap_congr fun d _ => ?_
        have := bm25ScoreAux_eq_spec cfg log docs query d
        rw [← havg, ← hqT] at this
        simp only [this]
      set le := fun (x y : String × ℚ) => decide (y.2 ≤ x.2) with hle
      have htrans : ∀ a b c : String × ℚ, le a b = true → le b c = true → le a c = true := by
        intro a b c hab hbc
        rw [hle] at hab hbc ⊢
        rw [decide_eq_true_iff] at hab hbc ⊢
        exact le_trans hbc hab
      have htotal : ∀ a b : String × ℚ, le a b = true ∨ le b a = true := by
        intro a b
        rw [hle]
        rcases le_total b.2 a.2 with h | h
        · exact Or.inl (decide_eq_true h)
        · exact Or.inr (decide_eq_true h)
      refine ⟨sortLe le scored, (sortLe_perm le scored).trans (hspec ▸ List.Perm.refl _),
        (sortLe_pairwise le htrans htotal scored).imp fun h => of_decide_eq_true h, ?_⟩
      have hrows : docs.zip
          (((docs.map fun d => fun t => (docTokens cfg d).count t)).zip
            (docs.map fun d => (docTokens cfg d).length)) =
          docs.map fun d => (d, fun t => (docTokens cfg d).count t,
            (docTokens cfg d).length) :=
        zip_self_maps _ _ docs
      simp only [Search, NewBM25Index]
      rw [if_neg hd, if_neg hq, hrows, List.filterMap_map]
      rfl

end ToolRAG
